import Mathlib

/-!
# gochain: block validation, chain validation and chain replacement

A shallow embedding of `gochain.go`.

* Go `int` is the 64-bit two's complement integer: values are `Int`s and every
  addition of the source goes through `wrapInt`.
* Go `string` values are Lean strings; hashing runs over their UTF-8 bytes.
* `crypto/sha256` and `encoding/hex` are written out (FIPS 180-4), so that
  `Hash` can be evaluated.
* `time.Time` is the civil time it prints (`FormatFromTime` is the only place
  the source looks at a time value); `time.Now()` is a parameter `now`.
* An out-of-range slice access (a run-time panic in Go) is `none`.
* The package variables `blockchain` and `peers` are the fields of `Node`; a
  handler is a function from the node and its inputs to a `Run`.
-/

namespace Gochain

/-! ## Machine integers -/

/-- Two's complement wrap-around of a mathematical integer into the range of a
64-bit Go `int`. -/
def wrapInt (x : Int) : Int :=
  (x + 9223372036854775808) % 18446744073709551616 - 9223372036854775808

/-- The values a 64-bit Go `int` can hold. -/
def isGoInt (x : Int) : Prop :=
  -9223372036854775808 ≤ x ∧ x < 9223372036854775808

instance (x : Int) : Decidable (isGoInt x) := by
  unfold isGoInt; infer_instance

/-! ## SHA-256 and hexadecimal encoding (the library calls made by `Hash`) -/

namespace Sha256

/-- The 32-bit word modulus. -/
def W : Nat := 4294967296

/-- Round constants. -/
def K : List Nat :=
  [0x428a2f98, 0x71374491, 0xb5c0fbcf, 0xe9b5dba5, 0x3956c25b, 0x59f111f1, 0x923f82a4, 0xab1c5ed5,
   0xd807aa98, 0x12835b01, 0x243185be, 0x550c7dc3, 0x72be5d74, 0x80deb1fe, 0x9bdc06a7, 0xc19bf174,
   0xe49b69c1, 0xefbe4786, 0x0fc19dc6, 0x240ca1cc, 0x2de92c6f, 0x4a7484aa, 0x5cb0a9dc, 0x76f988da,
   0x983e5152, 0xa831c66d, 0xb00327c8, 0xbf597fc7, 0xc6e00bf3, 0xd5a79147, 0x06ca6351, 0x14292967,
   0x27b70a85, 0x2e1b2138, 0x4d2c6dfc, 0x53380d13, 0x650a7354, 0x766a0abb, 0x81c2c92e, 0x92722c85,
   0xa2bfe8a1, 0xa81a664b, 0xc24b8b70, 0xc76c51a3, 0xd192e819, 0xd6990624, 0xf40e3585, 0x106aa070,
   0x19a4c116, 0x1e376c08, 0x2748774c, 0x34b0bcb5, 0x391c0cb3, 0x4ed8aa4a, 0x5b9cca4f, 0x682e6ff3,
   0x748f82ee, 0x78a5636f, 0x84c87814, 0x8cc70208, 0x90befffa, 0xa4506ceb, 0xbef9a3f7, 0xc67178f2]

/-- Initial hash value. -/
def H0 : List Nat :=
  [0x6a09e667, 0xbb67ae85, 0x3c6ef372, 0xa54ff53a, 0x510e527f, 0x9b05688c, 0x1f83d9ab, 0x5be0cd19]

/-- Rotate a 32-bit word right by `n` bits. -/
def rotr (x n : Nat) : Nat := ((x >>> n) ||| (x <<< (32 - n))) % W

/-- Bitwise complement of a 32-bit word. -/
def not32 (x : Nat) : Nat := (W - 1) ^^^ x

def ch (x y z : Nat) : Nat := (x &&& y) ^^^ (not32 x &&& z)
def maj (x y z : Nat) : Nat := (x &&& y) ^^^ (x &&& z) ^^^ (y &&& z)
def bigSigma0 (x : Nat) : Nat := rotr x 2 ^^^ rotr x 13 ^^^ rotr x 22
def bigSigma1 (x : Nat) : Nat := rotr x 6 ^^^ rotr x 11 ^^^ rotr x 25
def smallSigma0 (x : Nat) : Nat := rotr x 7 ^^^ rotr x 18 ^^^ (x >>> 3)
def smallSigma1 (x : Nat) : Nat := rotr x 17 ^^^ rotr x 19 ^^^ (x >>> 10)

/-- Big-endian bytes of `x`, `n` of them. -/
def toBytesBE : Nat → Nat → List Nat
  | 0, _ => []
  | n + 1, x => (x >>> (8 * n)) % 256 :: toBytesBE n x

/-- The message followed by the bit `1`, zero bits up to 56 modulo 64 bytes, and
the bit length in 8 bytes. -/
def pad (msg : List Nat) : List Nat :=
  let l := msg.length
  msg ++ 0x80 :: List.replicate ((119 - l % 64) % 64) 0 ++ toBytesBE 8 ((8 * l) % 18446744073709551616)

/-- Big-endian 32-bit words of a byte list (a trailing group of fewer than four
bytes is dropped; `pad` leaves none). -/
def toWords : List Nat → List Nat
  | a :: b :: c :: d :: rest => (((a * 256 + b) * 256 + c) * 256 + d) :: toWords rest
  | _ => []

/-- Split a word list into the 16-word blocks, `n` of them. -/
def chunks : Nat → List Nat → List (List Nat)
  | 0, _ => []
  | n + 1, ws => ws.take 16 :: chunks n (ws.drop 16)

/-- Extend the message schedule by `n` words; `rev` holds the schedule so far,
most recent word first. -/
def extend : Nat → List Nat → List Nat
  | 0, rev => rev
  | n + 1, rev =>
    let w := (smallSigma1 (rev.getD 1 0) + rev.getD 6 0 + smallSigma0 (rev.getD 14 0)
      + rev.getD 15 0) % W
    extend n (w :: rev)

/-- The 64-word message schedule of a 16-word block. -/
def schedule (block : List Nat) : List Nat := (extend 48 block.reverse).reverse

/-- Working variables `a .. h`. -/
structure Vars where
  a : Nat
  b : Nat
  c : Nat
  d : Nat
  e : Nat
  f : Nat
  g : Nat
  h : Nat

/-- One round, with round constant `k` and schedule word `w`. -/
def round (v : Vars) (kw : Nat × Nat) : Vars :=
  let t1 := (v.h + bigSigma1 v.e + ch v.e v.f v.g + kw.1 + kw.2) % W
  let t2 := (bigSigma0 v.a + maj v.a v.b v.c) % W
  { a := (t1 + t2) % W, b := v.a, c := v.b, d := v.c, e := (v.d + t1) % W, f := v.e, g := v.f,
    h := v.g }

/-- Compress one 16-word block into the state. -/
def compress (st : List Nat) (block : List Nat) : List Nat :=
  let v0 : Vars :=
    { a := st.getD 0 0, b := st.getD 1 0, c := st.getD 2 0, d := st.getD 3 0, e := st.getD 4 0,
      f := st.getD 5 0, g := st.getD 6 0, h := st.getD 7 0 }
  let v := (K.zip (schedule block)).foldl round v0
  [(v0.a + v.a) % W, (v0.b + v.b) % W, (v0.c + v.c) % W, (v0.d + v.d) % W, (v0.e + v.e) % W,
   (v0.f + v.f) % W, (v0.g + v.g) % W, (v0.h + v.h) % W]

/-- The 32-byte digest of a byte string. -/
def sum (msg : List Nat) : List Nat :=
  let ws := toWords (pad msg)
  let st := (chunks (ws.length / 16) ws).foldl compress H0
  st.flatMap (toBytesBE 4)

end Sha256

/-- One lowercase hexadecimal digit. -/
def hexDigit (n : Nat) : Char := "0123456789abcdef".toList.getD n '0'

/-- Lowercase hexadecimal text of a byte list, two digits a byte
(`hex.EncodeToString`). -/
def hexEncode (bytes : List Nat) : String :=
  String.mk (bytes.flatMap fun b => [hexDigit (b / 16), hexDigit (b % 16)])

/-- UTF-8 bytes of one character. -/
def utf8Char (c : Char) : List Nat :=
  let n := c.toNat
  if n < 0x80 then [n]
  else if n < 0x800 then [0xC0 + n / 64, 0x80 + n % 64]
  else if n < 0x10000 then [0xE0 + n / 4096, 0x80 + n / 64 % 64, 0x80 + n % 64]
  else [0xF0 + n / 262144, 0x80 + n / 4096 % 64, 0x80 + n / 64 % 64, 0x80 + n % 64]

/-- The bytes of a string. -/
def utf8Bytes (s : String) : List Nat := s.toList.flatMap utf8Char

/-- Hexadecimal SHA-256 digest of a string: `sha256.New`, `io.WriteString`,
`hex.EncodeToString(h.Sum(nil))`. -/
def sha256Hex (s : String) : String := hexEncode (Sha256.sum (utf8Bytes s))

/-! ## Text of integers and times (`strconv.Itoa`, `time.Time.Format`) -/

/-- Decimal text of an integer, `-` first when negative (`strconv.Itoa`). -/
def Itoa (i : Int) : String :=
  if i < 0 then "-" ++ Nat.repr i.natAbs else Nat.repr i.natAbs

/-- A `time.Time`, as the civil date and clock time it prints in its location. -/
structure Time where
  Year : Nat
  Month : Nat
  Day : Nat
  Hour : Nat
  Minute : Nat
  Second : Nat
deriving DecidableEq, Repr

/-- Decimal text of `n`, zero-padded on the left to at least `w` digits. -/
def zeroPad (w n : Nat) : String :=
  String.mk (List.replicate (w - (Nat.repr n).length) '0') ++ Nat.repr n

/-- FormatFromTime serializes a time to a string, layout `2006-01-02 15:04:05`. -/
def FormatFromTime (t : Time) : String :=
  zeroPad 4 t.Year ++ "-" ++ zeroPad 2 t.Month ++ "-" ++ zeroPad 2 t.Day ++ " " ++
    zeroPad 2 t.Hour ++ ":" ++ zeroPad 2 t.Minute ++ ":" ++ zeroPad 2 t.Second

/-! ## Blocks and chains -/

/-- Block is the basic block of the chain. -/
structure Block where
  Index : Int
  PreviousHash : String
  Timestamp : String
  Data : String
  Hash : String
deriving DecidableEq, Repr

/-- BlockChain contains a list of blocks. -/
structure BlockChain where
  Blockchain : List Block
deriving DecidableEq, Repr

/-- Slice indexing `s[i]` with a Go `int` index: a run-time panic (`none`) unless
`0 ≤ i < len(s)`. -/
def sliceIndex {α : Type} (s : List α) (i : Int) : Option α :=
  if i < 0 then none else s[i.toNat]?

/-- Hash computes the SHA256 hash of the given block. -/
def Hash (block : Block) : String :=
  sha256Hex (Itoa block.Index ++ block.PreviousHash ++ block.Timestamp ++ block.Data)

/-- NewBlock builds a new block struct. -/
def NewBlock (index : Int) (previousHash : String) (timestamp : Time) (data : String) : Block :=
  let block : Block :=
    { Index := index, PreviousHash := previousHash, Timestamp := FormatFromTime timestamp,
      Data := data, Hash := "" }
  { block with Hash := Hash block }

/-- NextIndex returns the next available index in the blockchain. -/
def NextIndex (bc : BlockChain) : Int :=
  wrapInt ((bc.Blockchain.length : Int) + 1)

/-- LastBlock returns the last valid block in the blockchain; `none` is the
index-out-of-range panic on a chain without blocks. -/
def LastBlock (b : BlockChain) : Option Block :=
  sliceIndex b.Blockchain ((b.Blockchain.length : Int) - 1)

/-- AddBlock adds the block to the blockchain. -/
def AddBlock (b : Block) (bc : BlockChain) : BlockChain :=
  { Blockchain := bc.Blockchain ++ [b] }

/-- NextBlock generates a new block for the chain with the given data; `now` is
the reading of `time.Now()`. -/
def NextBlock (data : String) (bc : BlockChain) (now : Time) : Option Block :=
  let index := NextIndex bc
  match LastBlock bc with
  | none => none
  | some last =>
    let prevHash := Hash last
    let timestamp := now
    some (NewBlock index prevHash timestamp data)

/-- GetGenesisBlock initializes a genesis block; `now` is the reading of
`time.Now()`. -/
def GetGenesisBlock (now : Time) : Block :=
  let b : Block :=
    { Index := 0, PreviousHash := "", Timestamp := FormatFromTime now,
      Data := "The genesis block", Hash := "" }
  { b with Hash := Hash b }

/-- IsBlockValid returns true if the new block is valid compared to the previous
one, false otherwise. -/
def IsBlockValid (block prevBlock : Block) : Bool :=
  if block.Index == wrapInt (prevBlock.Index + 1) &&
      block.PreviousHash == prevBlock.Hash &&
      Hash block == block.Hash then
    true
  else
    false

/-- The loop of `IsChainValid`: `prevBlock` is the block at position `i - 1` and
the list holds the blocks at positions `i`, `i + 1`, ... in order. -/
def IsChainValid.loop : Block → List Block → Bool
  | _, [] => true
  | prevBlock, curBlock :: rest =>
    if !IsBlockValid curBlock prevBlock then false else IsChainValid.loop curBlock rest

/-- IsChainValid checks the validity of all the blocks in the chain; `none` is
the index-out-of-range panic of `blockchain.Blockchain[0]` on a chain without
blocks. -/
def IsChainValid (blockchain : BlockChain) : Option Bool :=
  match blockchain.Blockchain with
  | [] => none
  | first :: rest => some (IsChainValid.loop first rest)

/-- ReplaceChain returns the longest valid chain between the two; `none` when the
call of `IsChainValid` panics. -/
def ReplaceChain (newBlocks blockchain : BlockChain) : Option BlockChain :=
  match IsChainValid newBlocks with
  | none => none
  | some valid =>
    if valid && decide (newBlocks.Blockchain.length > blockchain.Blockchain.length) then
      some newBlocks
    else
      some blockchain

/-! ## Messages, node state and handlers -/

/-- Types of messages. -/
def QueryBlockchain : Int := 0

def ResponseBlockchain : Int := 1

def QueryAddBlock : Int := 2

/-- What `json.Unmarshal` reads out of the bytes of an inbound message: the
members `Type`, `Block` and `Blockchain` of the JSON object, the zero value for a
member the object does not have. -/
structure Msg where
  MsgType : Int
  Block : Block
  Blockchain : BlockChain
deriving DecidableEq, Repr

/-- WSMessage represents a WebSocket query (its field is `Type` in the source). -/
structure WSMessage where
  MsgType : Int
deriving DecidableEq, Repr

/-- NewWSMessage parses a JSON string into a WSMessage. -/
def NewWSMessage (msg : Msg) : WSMessage :=
  { MsgType := msg.MsgType }

/-- WSResponseBlockchain represents a response to synchronize the blockchain. -/
structure WSResponseBlockchain where
  MsgType : Int
  Blockchain : BlockChain
deriving DecidableEq, Repr

/-- NewWSResponseBlockchain deserializes a JSON string into a blockchain
response. -/
def NewWSResponseBlockchain (msg : Msg) : WSResponseBlockchain :=
  { MsgType := msg.MsgType, Blockchain := msg.Blockchain }

/-- WSQueryAddBlock is a query to add a newly added block to other nodes. -/
structure WSQueryAddBlock where
  MsgType : Int
  Block : Block
deriving DecidableEq, Repr

/-- NewWSQueryAddBlock deserialized a JSON string into a WSQueryAddBlock. -/
def NewWSQueryAddBlock (msg : Msg) : WSQueryAddBlock :=
  { MsgType := msg.MsgType, Block := msg.Block }

/-- The package variables `blockchain` and `peers`. -/
structure Node where
  blockchain : BlockChain
  peers : List String
deriving DecidableEq, Repr

/-- How a call ends: it returns (`done`), the process exits in `log.Fatal`
(`fatal`, with what had happened until then), or it panics on a slice index out
of range (`panic`). -/
inductive Run (α : Type) where
  | done (a : α)
  | fatal (a : α)
  | panic
deriving DecidableEq, Repr

/-- What the network does with one `Dial` of `Broadcast`: the dial fails, or it
gives a connection on which `WriteJSON` succeeds or fails. -/
inductive DialResult where
  | refused
  | connected (written : Bool)
deriving DecidableEq, Repr

/-- The loop of `Broadcast`; `k` counts the dials made so far, `net k` is the
result of dial `k`, and `sent` collects the peers the message was written to. -/
def Broadcast.loop (net : Nat → DialResult) (msg : WSQueryAddBlock) :
    Nat → List String → List (String × WSQueryAddBlock) → Run (List (String × WSQueryAddBlock))
  | _, [], sent => Run.done sent
  | k, peer :: rest, sent =>
    match net k with
    | DialResult.refused => Run.fatal sent
    | DialResult.connected true => Broadcast.loop net msg (k + 1) rest (sent ++ [(peer, msg)])
    | DialResult.connected false => Broadcast.loop net msg (k + 1) rest sent

/-- Broadcast sends a message to all known peers: the result lists, in order,
the peers the message was written to. A failed dial is `log.Fatal`, a failed
write is only logged. -/
def Broadcast (net : Nat → DialResult) (peers : List String) (msg : WSQueryAddBlock) :
    Run (List (String × WSQueryAddBlock)) :=
  Broadcast.loop net msg 0 peers []

/-- What a call of `PostBlock` leaves behind: the node, the messages written to
peers, and the text written to the response (`none`: nothing was written). -/
structure PostResult where
  node : Node
  sent : List (String × WSQueryAddBlock)
  response : Option String
deriving DecidableEq, Repr

/-- PostBlock handles HTTP POST requests to add new data to the blockchain. All
the data in the request's body is added to a new block in the chain. `body` is
the result of `ioutil.ReadAll(r.Body)` (`none`: a read error), `now` the reading
of `time.Now()`, `net` the network met by `Broadcast`. -/
def PostBlock (body : Option String) (now : Time) (net : Nat → DialResult) (node : Node) :
    Run PostResult :=
  match body with
  | some s =>
    match NextBlock s node.blockchain now with
    | none => Run.panic
    | some nb =>
      match LastBlock node.blockchain with
      | none => Run.panic
      | some prevBlock =>
        if IsBlockValid nb prevBlock then
          let node1 : Node := { node with blockchain := AddBlock nb node.blockchain }
          let wsq : WSQueryAddBlock := { MsgType := QueryAddBlock, Block := nb }
          match Broadcast net node.peers wsq with
          | Run.done sent =>
            Run.done { node := node1, sent := sent, response := some "New block added" }
          | Run.fatal sent => Run.fatal { node := node1, sent := sent, response := none }
          | Run.panic => Run.panic
        else
          Run.done { node := node, sent := [], response := some "Error adding block" }
  | none => Run.done { node := node, sent := [], response := some "Error adding block" }

/-- What a call of `P2PHandler` leaves behind: the node, and the chain written to
the connection by `conn.WriteJSON(*blockchain)` (`none`: nothing was written). -/
structure P2PResult where
  node : Node
  written : Option BlockChain
deriving DecidableEq, Repr

/-- P2PHandler handles P2P communications over WebSocket. `upgraded` tells
whether `upgrader.Upgrade` succeeded, `read` is the message given by
`conn.ReadMessage()` (`none`: a read error). -/
def P2PHandler (upgraded : Bool) (read : Option Msg) (node : Node) : Run P2PResult :=
  if !upgraded then
    Run.fatal { node := node, written := none }
  else
    match read with
    | none => Run.fatal { node := node, written := none }
    | some msg =>
      let wsmsg := NewWSMessage msg
      if wsmsg.MsgType == QueryAddBlock then
        let wsmsgab := NewWSQueryAddBlock msg
        Run.done { node := { node with blockchain := AddBlock wsmsgab.Block node.blockchain },
                   written := none }
      else if wsmsg.MsgType == QueryBlockchain then
        Run.done { node := node, written := some node.blockchain }
      else
        Run.done { node := node, written := none }

/-! ## Notions used to state the properties -/

/-- The chains obtained from the one-block chain `[g]` by calls of `AddBlock`,
each with a block that `IsBlockValid` accepts against the last block of the
chain it is added to. -/
inductive BuiltFrom (g : Block) : BlockChain → Prop where
  | genesis : BuiltFrom g { Blockchain := [g] }
  | add (bc : BlockChain) (b last : Block) :
      BuiltFrom g bc → LastBlock bc = some last → IsBlockValid b last = true →
      BuiltFrom g (AddBlock b bc)

/-- The chain with the `Hash` field of the block at position `i` set to `h`, every
other field and block as before. -/
def setHash (bc : BlockChain) (i : Nat) (h : String) : BlockChain :=
  { Blockchain := bc.Blockchain.modify (fun b => { b with Hash := h }) i }

/-- The success outcome of `PostBlock`: the call returns, the chain is the old
chain with one block `nb` added whose `Data` is the payload and which
`IsBlockValid` accepts against the old last block, `nb` went through `Broadcast`
in a `QueryAddBlock` message, and the response is "New block added". -/
def PostSucceeded (body : Option String) (net : Nat → DialResult) (node : Node)
    (out : Run PostResult) : Prop :=
  ∃ (payload : String) (nb last : Block) (sent : List (String × WSQueryAddBlock)),
    body = some payload ∧ LastBlock node.blockchain = some last ∧ nb.Data = payload ∧
    IsBlockValid nb last = true ∧
    Broadcast net node.peers { MsgType := QueryAddBlock, Block := nb } = Run.done sent ∧
    out = Run.done
      { node := { node with blockchain := AddBlock nb node.blockchain }, sent := sent,
        response := some "New block added" }

/-- The failure outcome of `PostBlock`: the call returns, the node is unchanged,
nothing was sent, and the response is "Error adding block". -/
def PostFailed (node : Node) (out : Run PostResult) : Prop :=
  out = Run.done { node := node, sent := [], response := some "Error adding block" }

/-! ## Sample values -/

/-- A network on which every dial fails. -/
def deadNet : Nat → DialResult := fun _ => DialResult.refused

/-- A network on which every dial and every write succeeds. -/
def liveNet : Nat → DialResult := fun _ => DialResult.connected true


/-- A clock reading. -/
def sampleTime : Time :=
  { Year := 2017, Month := 7, Day := 30, Hour := 12, Minute := 45, Second := 20 }

/-- A later clock reading. -/
def laterTime : Time :=
  { Year := 2017, Month := 7, Day := 30, Hour := 16, Minute := 8, Second := 1 }

/-- The genesis block made at `sampleTime`. -/
def sampleGenesis : Block := GetGenesisBlock sampleTime

/-- A block with index 1 that links to `sampleGenesis`. -/
def sampleSecond : Block := NewBlock 1 sampleGenesis.Hash laterTime "hello"

/-- A block with index 2 that links to `sampleSecond`. -/
def sampleThird : Block := NewBlock 2 sampleSecond.Hash laterTime "world"

/-- The one-block chain of `sampleGenesis`. -/
def genesisChain : BlockChain := { Blockchain := [sampleGenesis] }

/-- A chain of two linked blocks. -/
def sampleChain2 : BlockChain := { Blockchain := [sampleGenesis, sampleSecond] }

/-- A chain of three linked blocks. -/
def sampleChain3 : BlockChain := { Blockchain := [sampleGenesis, sampleSecond, sampleThird] }

/-- A block that links to nothing: index 7, no hashes. -/
def strayBlock : Block :=
  { Index := 7, PreviousHash := "", Timestamp := "", Data := "junk", Hash := "" }

/-- The first block of `TestBlockchainMarshal`: index 1, hash of its fields. -/
def testBlock : Block :=
  let b : Block :=
    { Index := 1, PreviousHash := "0", Timestamp := "2017-07-30 16:08:01",
      Data := "Genesis block", Hash := "" }
  { b with Hash := Hash b }

/-- A node whose chain is the one block `testBlock`, with one peer. -/
def testNode : Node := { blockchain := { Blockchain := [testBlock] }, peers := ["ws://peer"] }

/-- The block of `TestBlockMarshal`: index 1, hash of its fields. -/
def marshalBlock : Block :=
  let b : Block :=
    { Index := 1, PreviousHash := "0", Timestamp := "2017-07-30 12:45:20",
      Data := "Some data", Hash := "" }
  { b with Hash := Hash b }

/-- The second block of `TestBlockchainMarshal`: index 2, linked to `testBlock`. -/
def testSecond : Block :=
  let b : Block :=
    { Index := 2, PreviousHash := Hash testBlock, Timestamp := "2017-07-30 16:08:01",
      Data := "First block", Hash := "" }
  { b with Hash := Hash b }

/-- The fields of `marshalBlock` with the boundary between `Index` and
`PreviousHash` moved: index 10 and an empty `PreviousHash`. -/
def shiftedBlock : Block :=
  { Index := 10, PreviousHash := "", Timestamp := "2017-07-30 12:45:20",
    Data := "Some data", Hash := "" }

/-- A block whose index is the largest Go `int`. -/
def maxIndexBlock : Block :=
  { Index := 9223372036854775807, PreviousHash := "", Timestamp := "2017-07-30 12:45:20",
    Data := "last index", Hash := "" }

/-- A block whose index is the smallest Go `int`, linked to `maxIndexBlock`. -/
def minIndexBlock : Block :=
  let b : Block :=
    { Index := -9223372036854775808, PreviousHash := maxIndexBlock.Hash,
      Timestamp := "2017-07-30 12:45:21", Data := "wrapped", Hash := "" }
  { b with Hash := Hash b }

/-- The chain of `maxIndexBlock` and `minIndexBlock`. -/
def wrapChain : BlockChain := { Blockchain := [maxIndexBlock, minIndexBlock] }

/-! ## Arithmetic of `wrapInt` -/

theorem wrapInt_of_isGoInt (x : Int) (h : isGoInt x) : wrapInt x = x := by
  unfold isGoInt at h
  unfold wrapInt
  omega

theorem isGoInt_wrapInt (x : Int) : isGoInt (wrapInt x) := by
  unfold isGoInt wrapInt
  omega

theorem wrapInt_succ (x : Int) (h : isGoInt x) (hmax : x < 9223372036854775807) :
    wrapInt (x + 1) = x + 1 := by
  unfold isGoInt at h
  unfold wrapInt
  omega

theorem wrapInt_succ_inj (x y : Int) (hx : isGoInt x) (hy : isGoInt y)
    (h : wrapInt (x + 1) = wrapInt (y + 1)) : x = y := by
  unfold isGoInt at hx hy
  unfold wrapInt at h
  omega

theorem wrapInt_add_two_ne (x : Int) : wrapInt (x + 2) ≠ wrapInt (x + 1) := by
  unfold wrapInt
  omega

/-! ## Block validation -/

theorem Hash_congr (b c : Block) (hi : b.Index = c.Index)
    (hp : b.PreviousHash = c.PreviousHash) (ht : b.Timestamp = c.Timestamp)
    (hd : b.Data = c.Data) : Hash b = Hash c := by
  unfold Hash
  rw [hi, hp, ht, hd]

theorem IsBlockValid_eq_true (block prevBlock : Block) :
    IsBlockValid block prevBlock = true ↔
      block.Index = wrapInt (prevBlock.Index + 1) ∧
      block.PreviousHash = prevBlock.Hash ∧
      Hash block = block.Hash := by
  simp [IsBlockValid, and_assoc]

/-- C1: for every pair of blocks, `IsBlockValid candidate previous` returns true
if and only if the candidate's index is the previous index plus one (the `+` of
Go `int`), its `PreviousHash` is the previous block's `Hash`, and `Hash` of the
candidate is its stored `Hash`. -/
theorem IsBlockValid_iff (candidate previous : Block) :
    IsBlockValid candidate previous = true ↔
      (candidate.Index = wrapInt (previous.Index + 1) ∧
        candidate.PreviousHash = previous.Hash ∧
        Hash candidate = candidate.Hash) :=
  IsBlockValid_eq_true candidate previous

/-! ## Chain validation -/

theorem IsChainValid_loop_cons (prevBlock curBlock : Block) (rest : List Block) :
    IsChainValid.loop prevBlock (curBlock :: rest) =
      (IsBlockValid curBlock prevBlock && IsChainValid.loop curBlock rest) := by
  cases hv : IsBlockValid curBlock prevBlock <;> simp [IsChainValid.loop, hv]

theorem IsChainValid_loop_iff (rest : List Block) : ∀ prevBlock : Block,
    IsChainValid.loop prevBlock rest = true ↔
      ∀ (i : Nat) (cur prev : Block), (prevBlock :: rest)[i + 1]? = some cur →
        (prevBlock :: rest)[i]? = some prev → IsBlockValid cur prev = true := by
  induction rest with
  | nil =>
    intro prevBlock
    simp [IsChainValid.loop]
  | cons c tl ih =>
    intro prevBlock
    rw [IsChainValid_loop_cons, Bool.and_eq_true, ih c]
    constructor
    · rintro ⟨h0, hrest⟩ i cur prev hcur hprev
      cases i with
      | zero =>
        simp at hcur hprev
        subst hcur hprev
        exact h0
      | succ j =>
        exact hrest j cur prev (by simpa using hcur) (by simpa using hprev)
    · intro h
      refine ⟨h 0 c prevBlock (by simp) (by simp), ?_⟩
      intro i cur prev hcur hprev
      exact h (i + 1) cur prev (by simpa using hcur) (by simpa using hprev)

theorem IsChainValid_empty : IsChainValid { Blockchain := [] } = none := rfl

theorem IsChainValid_cons (first : Block) (rest : List Block) :
    IsChainValid { Blockchain := first :: rest } = some (IsChainValid.loop first rest) := rfl

/-- C2 (as the code has it): for every chain with at least one block,
`IsChainValid` returns, and it returns true if and only if `IsBlockValid` accepts
every block at a position `i + 1` against the block at position `i`; the first
block is compared with nothing. -/
theorem IsChainValid_nonempty_iff (bc : BlockChain) (h : bc.Blockchain ≠ []) :
    ∃ r : Bool, IsChainValid bc = some r ∧
      (r = true ↔
        ∀ (i : Nat) (cur prev : Block), bc.Blockchain[i + 1]? = some cur →
          bc.Blockchain[i]? = some prev → IsBlockValid cur prev = true) := by
  obtain ⟨l⟩ := bc
  cases l with
  | nil => exact absurd rfl h
  | cons first rest =>
    exact ⟨IsChainValid.loop first rest, rfl, IsChainValid_loop_iff rest first⟩

/-- C2, witness: the amended statement at the two-block chain `sampleChain2`. -/
theorem IsChainValid_nonempty_iff_witness :
    sampleChain2.Blockchain ≠ [] ∧
      ∃ r : Bool, IsChainValid sampleChain2 = some r ∧
        (r = true ↔
          ∀ (i : Nat) (cur prev : Block), sampleChain2.Blockchain[i + 1]? = some cur →
            sampleChain2.Blockchain[i]? = some prev → IsBlockValid cur prev = true) :=
  ⟨by decide, IsChainValid_nonempty_iff sampleChain2 (by decide)⟩

/-- C2, counterexample: the one-block chain of `strayBlock` (index 7, no hash) is
accepted by `IsChainValid`, and `strayBlock` is the genesis block of no clock
reading. -/
theorem IsChainValid_accepts_non_genesis :
    IsChainValid { Blockchain := [strayBlock] } = some true ∧
      ¬ ∃ now : Time, strayBlock = GetGenesisBlock now := by
  refine ⟨rfl, ?_⟩
  rintro ⟨now, h⟩
  have hidx : strayBlock.Index = (GetGenesisBlock now).Index := by rw [← h]
  simp [strayBlock, GetGenesisBlock] at hidx

/-! ## Chain replacement -/

theorem ReplaceChain_cons (first : Block) (rest : List Block) (blockchain : BlockChain) :
    ReplaceChain { Blockchain := first :: rest } blockchain =
      some (if IsChainValid.loop first rest = true ∧
          blockchain.Blockchain.length < (first :: rest).length
        then { Blockchain := first :: rest } else blockchain) := by
  cases hv : IsChainValid.loop first rest
  · simp [ReplaceChain, IsChainValid, hv]
  · by_cases hl : blockchain.Blockchain.length < rest.length + 1 <;>
      simp [ReplaceChain, IsChainValid, hv, hl]

/-- C3 (what the code does): with a candidate that has no block the call panics,
whatever the local chain; with a candidate of at least one block it returns the
candidate when `IsChainValid` accepts it and it is strictly longer than the local
chain, and the local chain otherwise. -/
theorem ReplaceChain_empty_candidate_panics :
    (∀ blockchain : BlockChain, ReplaceChain { Blockchain := [] } blockchain = none) ∧
      ∀ (first : Block) (rest : List Block) (blockchain : BlockChain),
        ReplaceChain { Blockchain := first :: rest } blockchain =
          some (if IsChainValid { Blockchain := first :: rest } = some true ∧
              blockchain.Blockchain.length < (first :: rest).length
            then { Blockchain := first :: rest } else blockchain) := by
  refine ⟨fun _ => rfl, ?_⟩
  intro first rest blockchain
  rw [ReplaceChain_cons, IsChainValid_cons]
  simp

/-! ## Chains built by `AddBlock` -/

theorem LastBlock_eq_getLast? (bc : BlockChain) : LastBlock bc = bc.Blockchain.getLast? := by
  obtain ⟨l⟩ := bc
  unfold LastBlock sliceIndex
  by_cases hl : l = []
  · subst hl
    simp
  · have hpos : 0 < l.length := List.length_pos.mpr hl
    have hnn : ¬ ((l.length : Int) - 1 < 0) := by omega
    have hnat : ((l.length : Int) - 1).toNat = l.length - 1 := by omega
    simp only [hnn, if_false, hnat]
    exact (List.getLast?_eq_getElem? l).symm

theorem LastBlock_AddBlock (b : Block) (bc : BlockChain) : LastBlock (AddBlock b bc) = some b := by
  rw [LastBlock_eq_getLast?]
  simp [AddBlock]

theorem LastBlock_cons (first : Block) (rest : List Block) :
    LastBlock { Blockchain := first :: rest } = some ((first :: rest).getLast (by simp)) := by
  rw [LastBlock_eq_getLast?]
  exact List.getLast?_eq_getLast _ _

theorem IsChainValid_loop_append (rest : List Block) (b : Block) : ∀ prevBlock : Block,
    IsChainValid.loop prevBlock (rest ++ [b]) =
      (IsChainValid.loop prevBlock rest &&
        IsBlockValid b ((prevBlock :: rest).getLast (by simp))) := by
  induction rest with
  | nil =>
    intro prevBlock
    simp [IsChainValid_loop_cons, IsChainValid.loop]
  | cons c tl ih =>
    intro prevBlock
    rw [List.cons_append, IsChainValid_loop_cons, IsChainValid_loop_cons, ih c, Bool.and_assoc]
    simp [List.getLast_cons]

theorem IsChainValid_loop_take (rest : List Block) : ∀ (prevBlock : Block) (k : Nat),
    IsChainValid.loop prevBlock rest = true → IsChainValid.loop prevBlock (rest.take k) = true := by
  induction rest with
  | nil =>
    intro prevBlock k _
    simp [IsChainValid.loop]
  | cons c tl ih =>
    intro prevBlock k h
    cases k with
    | zero => simp [IsChainValid.loop]
    | succ j =>
      rw [IsChainValid_loop_cons, Bool.and_eq_true] at h
      rw [List.take_succ_cons, IsChainValid_loop_cons, Bool.and_eq_true]
      exact ⟨h.1, ih c j h.2⟩

/-- A chain built from `g` starts with `g` and passes the loop of `IsChainValid`. -/
theorem BuiltFrom_shape (g : Block) (bc : BlockChain) (h : BuiltFrom g bc) :
    ∃ rest : List Block, bc.Blockchain = g :: rest ∧ IsChainValid.loop g rest = true := by
  induction h with
  | genesis => exact ⟨[], rfl, rfl⟩
  | add bc b last _ hlast hvalid ih =>
    obtain ⟨rest, hshape, hloop⟩ := ih
    refine ⟨rest ++ [b], by simp [AddBlock, hshape], ?_⟩
    obtain ⟨l⟩ := bc
    simp only at hshape
    subst hshape
    rw [LastBlock_cons] at hlast
    rw [IsChainValid_loop_append, hloop, Option.some.inj hlast, hvalid]
    rfl

/-- C4: a chain obtained from the one-block chain of the genesis block (of any
clock reading) by `AddBlock` calls, each with a block `IsBlockValid` accepted
against the last block at the time of the call, is accepted by `IsChainValid`, and
so is each of its prefixes of `n ≥ 1` blocks. -/
theorem BuiltFrom_prefix_valid (now : Time) (bc : BlockChain)
    (h : BuiltFrom (GetGenesisBlock now) bc) (n : Nat) (h1 : 1 ≤ n)
    (h2 : n ≤ bc.Blockchain.length) :
    IsChainValid bc = some true ∧
      IsChainValid { Blockchain := bc.Blockchain.take n } = some true := by
  obtain ⟨rest, hshape, hloop⟩ := BuiltFrom_shape _ _ h
  obtain ⟨l⟩ := bc
  simp only at hshape h2 ⊢
  subst hshape
  refine ⟨by rw [IsChainValid_cons, hloop], ?_⟩
  obtain ⟨k, rfl⟩ : ∃ k, n = k + 1 := ⟨n - 1, by omega⟩
  rw [List.take_succ_cons, IsChainValid_cons, IsChainValid_loop_take rest _ k hloop]

/-- The chain `sampleChain3` is built from `sampleGenesis` by two calls of
`AddBlock` with accepted blocks. -/
theorem sampleChain3_built : BuiltFrom (GetGenesisBlock sampleTime) sampleChain3 :=
  BuiltFrom.add sampleChain2 sampleThird sampleSecond
    (BuiltFrom.add genesisChain sampleSecond sampleGenesis BuiltFrom.genesis
      (by decide) (by decide))
    (by decide) (by decide)

/-- C4, witness: `sampleChain3` is built by two accepted `AddBlock` calls, and its
prefix of two blocks is accepted. -/
theorem BuiltFrom_prefix_valid_witness :
    BuiltFrom (GetGenesisBlock sampleTime) sampleChain3 ∧ 1 ≤ 2 ∧
      2 ≤ sampleChain3.Blockchain.length ∧
      IsChainValid sampleChain3 = some true ∧
      IsChainValid { Blockchain := sampleChain3.Blockchain.take 2 } = some true :=
  ⟨sampleChain3_built, by decide, by decide,
    BuiltFrom_prefix_valid sampleTime sampleChain3 sampleChain3_built 2 (by decide) (by decide)⟩

/-! ## The next index and the next block -/

theorem GetGenesisBlock_hash (now : Time) :
    Hash (GetGenesisBlock now) = (GetGenesisBlock now).Hash :=
  Hash_congr _ _ rfl rfl rfl rfl

theorem NewBlock_hash (i : Int) (p : String) (t : Time) (d : String) :
    Hash (NewBlock i p t d) = (NewBlock i p t d).Hash :=
  Hash_congr _ _ rfl rfl rfl rfl

/-- In a chain built from a block of index 0 that carries its own hash, the last
block has index `len - 1` (as a Go `int`) and carries its own hash. -/
theorem BuiltFrom_last (g : Block) (hg : g.Index = 0) (hh : Hash g = g.Hash) (bc : BlockChain)
    (h : BuiltFrom g bc) :
    ∃ last : Block, LastBlock bc = some last ∧
      last.Index = wrapInt ((bc.Blockchain.length : Int) - 1) ∧ Hash last = last.Hash := by
  induction h with
  | genesis => exact ⟨g, rfl, by simp [hg, wrapInt], hh⟩
  | add bc b last _ hlast hvalid ih =>
    obtain ⟨last1, hlast1, hidx, _⟩ := ih
    rw [hlast] at hlast1
    cases hlast1
    rw [IsBlockValid_eq_true] at hvalid
    refine ⟨b, LastBlock_AddBlock b bc, ?_, hvalid.2.2⟩
    rw [hvalid.1, hidx]
    simp only [AddBlock, List.length_append, List.length_singleton, Nat.cast_add, Nat.cast_one]
    unfold wrapInt
    omega

/-- On every chain built from the genesis block by accepted `AddBlock` calls, for
every payload and clock reading, `NextBlock` returns a block whose index is two
more than the last block's (as Go `int`s), whose `PreviousHash` is the last
block's `Hash`, and which `IsBlockValid` rejects against the last block. -/
theorem NextBlock_on_built (now : Time) (bc : BlockChain)
    (h : BuiltFrom (GetGenesisBlock now) bc) (data : String) (clock : Time) :
    ∃ last nb : Block, LastBlock bc = some last ∧ NextBlock data bc clock = some nb ∧
      nb.Index = wrapInt (last.Index + 2) ∧ nb.PreviousHash = last.Hash ∧
      nb.Data = data ∧ IsBlockValid nb last = false := by
  obtain ⟨last, hlast, hidx, hhash⟩ :=
    BuiltFrom_last (GetGenesisBlock now) rfl (GetGenesisBlock_hash now) bc h
  have hnext : (NewBlock (NextIndex bc) (Hash last) clock data).Index = wrapInt (last.Index + 2) := by
    show NextIndex bc = wrapInt (last.Index + 2)
    rw [hidx]
    unfold NextIndex wrapInt
    omega
  refine ⟨last, NewBlock (NextIndex bc) (Hash last) clock data, hlast, ?_, hnext, hhash, rfl, ?_⟩
  · simp [NextBlock, hlast]
  · cases hv : IsBlockValid (NewBlock (NextIndex bc) (Hash last) clock data) last with
    | false => rfl
    | true =>
      rw [IsBlockValid_eq_true, hnext] at hv
      exact absurd hv.1 (wrapInt_add_two_ne last.Index)

/-- C5 (what the code does): on the chain that holds only the genesis block
(index 0, data "The genesis block", empty `PreviousHash`), for every payload and
every clock reading, `NextBlock` returns a block with index 2, not 1; its
`PreviousHash` is the genesis hash, and `IsBlockValid` rejects it against the
genesis block. -/
theorem NextBlock_on_genesis_rejected (now clock : Time) (data : String) :
    (GetGenesisBlock now).Index = 0 ∧
      (GetGenesisBlock now).Data = "The genesis block" ∧
      (GetGenesisBlock now).PreviousHash = "" ∧
      LastBlock { Blockchain := [GetGenesisBlock now] } = some (GetGenesisBlock now) ∧
      ∃ nb : Block,
        NextBlock data { Blockchain := [GetGenesisBlock now] } clock = some nb ∧
          nb.Index = 2 ∧ nb.PreviousHash = (GetGenesisBlock now).Hash ∧
          IsBlockValid nb (GetGenesisBlock now) = false := by
  refine ⟨rfl, rfl, rfl, LastBlock_cons _ _, ?_⟩
  refine ⟨NewBlock 2 (Hash (GetGenesisBlock now)) clock data, ?_, rfl,
    GetGenesisBlock_hash now, ?_⟩
  · simp [NextBlock, LastBlock_eq_getLast?, NextIndex, wrapInt]
  · simp [IsBlockValid, NewBlock, GetGenesisBlock, wrapInt]

/-- C8 (what the code does): `NextIndex` returns the number of blocks plus one
(as a Go `int`): 1 on the chain without blocks and 2, not 1, on a chain that holds
only a genesis block. -/
theorem NextIndex_is_length_succ (bc : BlockChain) (now : Time) :
    NextIndex bc = wrapInt ((bc.Blockchain.length : Int) + 1) ∧
      NextIndex { Blockchain := [] } = 1 ∧
      ({ Blockchain := [GetGenesisBlock now] } : BlockChain).Blockchain.length = 1 ∧
      NextIndex { Blockchain := [GetGenesisBlock now] } = 2 := by
  refine ⟨rfl, ?_, rfl, ?_⟩ <;> simp [NextIndex, wrapInt]

/-! ## Tampering with an accepted chain -/

theorem Hash_setHash (b : Block) (h : String) : Hash { b with Hash := h } = Hash b :=
  Hash_congr _ _ rfl rfl rfl rfl

/-- A block of an accepted chain, rewritten at a position after the first. -/
theorem IsChainValid_loop_modify (h : String) (rest : List Block) :
    ∀ (prevBlock : Block) (j : Nat) (b : Block), rest[j]? = some b → h ≠ b.Hash →
      IsChainValid.loop prevBlock rest = true →
      IsChainValid.loop prevBlock (rest.modify (fun b => { b with Hash := h }) j) = false := by
  induction rest with
  | nil =>
    intro prevBlock j b hb
    simp at hb
  | cons c tl ih =>
    intro prevBlock j b hb hne hloop
    rw [IsChainValid_loop_cons, Bool.and_eq_true] at hloop
    cases j with
    | zero =>
      simp only [List.getElem?_cons_zero, Option.some.injEq] at hb
      subst hb
      rw [List.modify_zero_cons, IsChainValid_loop_cons]
      have hc := (IsBlockValid_eq_true c prevBlock).mp hloop.1
      have hbad : IsBlockValid { c with Hash := h } prevBlock = false := by
        cases hv : IsBlockValid { c with Hash := h } prevBlock with
        | false => rfl
        | true =>
          have h3 := ((IsBlockValid_eq_true _ _).mp hv).2.2
          rw [Hash_setHash, hc.2.2] at h3
          exact absurd h3.symm hne
      rw [hbad]
      rfl
    | succ k =>
      rw [List.modify_succ_cons, IsChainValid_loop_cons, hloop.1, Bool.true_and]
      exact ih c k b (by simpa using hb) hne hloop.2

/-- C6 (as the code has it): in a chain accepted by `IsChainValid` that has at
least two blocks, setting the `Hash` field of the block at any position `i` to a
string other than the one it holds gives a chain of the same length that
`IsChainValid` rejects, and `ReplaceChain` returns the local chain for it. -/
theorem setHash_rejected (bc : BlockChain) (hv : IsChainValid bc = some true)
    (hlen : 2 ≤ bc.Blockchain.length) (i : Nat) (b : Block) (hb : bc.Blockchain[i]? = some b)
    (h : String) (hne : h ≠ b.Hash) (mine : BlockChain) :
    (setHash bc i h).Blockchain.length = bc.Blockchain.length ∧
      IsChainValid (setHash bc i h) = some false ∧
      ReplaceChain (setHash bc i h) mine = some mine := by
  obtain ⟨l⟩ := bc
  match l, hlen with
  | first :: second :: rest, _ =>
    rw [IsChainValid_cons, Option.some.injEq] at hv
    have hrej : IsChainValid (setHash { Blockchain := first :: second :: rest } i h) =
        some false := by
      cases i with
      | zero =>
        simp only [List.getElem?_cons_zero, Option.some.injEq] at hb
        subst hb
        simp only [setHash, List.modify_zero_cons]
        rw [IsChainValid_cons, IsChainValid_loop_cons]
        rw [IsChainValid_loop_cons, Bool.and_eq_true] at hv
        have hs := (IsBlockValid_eq_true second first).mp hv.1
        have hbad : IsBlockValid second { first with Hash := h } = false := by
          cases hv2 : IsBlockValid second { first with Hash := h } with
          | false => rfl
          | true =>
            have h2 := ((IsBlockValid_eq_true _ _).mp hv2).2.1
            rw [hs.2.1] at h2
            exact absurd h2.symm hne
        rw [hbad]
        rfl
      | succ k =>
        simp only [setHash, List.modify_succ_cons]
        rw [IsChainValid_cons]
        exact congrArg some
          (IsChainValid_loop_modify h (second :: rest) first k b (by simpa using hb) hne hv)
    refine ⟨by simp [setHash], hrej, ?_⟩
    simp [ReplaceChain, hrej]

set_option maxRecDepth 2000 in
/-- C6, witness: the `Hash` field of the second block of `sampleChain2` set to
"forged". -/
theorem setHash_rejected_witness :
    IsChainValid sampleChain2 = some true ∧ 2 ≤ sampleChain2.Blockchain.length ∧
      sampleChain2.Blockchain[1]? = some sampleSecond ∧ "forged" ≠ sampleSecond.Hash ∧
      (setHash sampleChain2 1 "forged").Blockchain.length = sampleChain2.Blockchain.length ∧
      IsChainValid (setHash sampleChain2 1 "forged") = some false ∧
      ReplaceChain (setHash sampleChain2 1 "forged") genesisChain = some genesisChain :=
  ⟨by decide, by decide, rfl, by decide,
    setHash_rejected sampleChain2 (by decide) (by decide) 1 sampleSecond rfl "forged"
      (by decide) genesisChain⟩

set_option maxRecDepth 2000 in
/-- C6, counterexample: the one-block chain of `sampleGenesis` is accepted; with
the `Hash` field of its block set to "forged" it has the same length and is
accepted too, and `ReplaceChain` returns it, not the local chain, when the local
chain has no blocks. -/
theorem setHash_single_block_accepted :
    IsChainValid genesisChain = some true ∧
      genesisChain.Blockchain[0]? = some sampleGenesis ∧ "forged" ≠ sampleGenesis.Hash ∧
      (setHash genesisChain 0 "forged").Blockchain.length = genesisChain.Blockchain.length ∧
      IsChainValid (setHash genesisChain 0 "forged") = some true ∧
      ReplaceChain (setHash genesisChain 0 "forged") { Blockchain := [] } =
        some (setHash genesisChain 0 "forged") ∧
      ReplaceChain (setHash genesisChain 0 "forged") { Blockchain := [] } ≠
        some { Blockchain := [] } := by
  decide

/-- C7 (as the code has it): for a block `B` of an accepted chain with successor
`S`, and any block `B'` (indices being Go `int`s), `IsBlockValid S B'` returns
false exactly when `B'` differs from `B` in `Index` or in `Hash`; a change of
`PreviousHash`, `Timestamp` or `Data` alone leaves it true. -/
theorem IsBlockValid_tampered_previous (bc : BlockChain) (hv : IsChainValid bc = some true)
    (i : Nat) (B S : Block) (hB : bc.Blockchain[i]? = some B)
    (hS : bc.Blockchain[i + 1]? = some S) (B' : Block) (hI : isGoInt B.Index)
    (hI' : isGoInt B'.Index) :
    IsBlockValid S B' = false ↔ (B'.Index ≠ B.Index ∨ B'.Hash ≠ B.Hash) := by
  obtain ⟨l⟩ := bc
  cases l with
  | nil => simp at hB
  | cons first rest =>
    rw [IsChainValid_cons, Option.some.injEq] at hv
    have hSB := (IsChainValid_loop_iff rest first).mp hv i S B hS hB
    rw [IsBlockValid_eq_true] at hSB
    rw [← Bool.not_eq_true, IsBlockValid_eq_true]
    constructor
    · intro hnot
      by_contra hcon
      push_neg at hcon
      exact hnot ⟨by rw [hcon.1]; exact hSB.1, by rw [hcon.2]; exact hSB.2.1, hSB.2.2⟩
    · rintro hch ⟨h1, h2, _⟩
      rcases hch with hidx | hhash
      · exact hidx (wrapInt_succ_inj _ _ hI' hI (by rw [← h1, hSB.1]))
      · exact hhash (by rw [← h2, hSB.2.1])

set_option maxRecDepth 2000 in
/-- C7, witness: in `sampleChain2`, the genesis block with its `Index` changed
to 5 is rejected as predecessor of the second block. -/
theorem IsBlockValid_tampered_previous_witness :
    IsChainValid sampleChain2 = some true ∧
      sampleChain2.Blockchain[0]? = some sampleGenesis ∧
      sampleChain2.Blockchain[0 + 1]? = some sampleSecond ∧
      isGoInt sampleGenesis.Index ∧ isGoInt ({ sampleGenesis with Index := 5 } : Block).Index ∧
      (IsBlockValid sampleSecond { sampleGenesis with Index := 5 } = false ↔
        (({ sampleGenesis with Index := 5 } : Block).Index ≠ sampleGenesis.Index ∨
          ({ sampleGenesis with Index := 5 } : Block).Hash ≠ sampleGenesis.Hash)) :=
  ⟨by decide, rfl, rfl, by decide, by decide,
    IsBlockValid_tampered_previous sampleChain2 (by decide) 0 sampleGenesis sampleSecond
      rfl rfl { sampleGenesis with Index := 5 } (by decide) (by decide)⟩

set_option maxRecDepth 2000 in
/-- C7, counterexample: in the accepted chain `sampleChain2`, the genesis block
with only its `Data` changed is still accepted by `IsBlockValid` as predecessor of
the second block. -/
theorem IsBlockValid_ignores_previous_data :
    IsChainValid sampleChain2 = some true ∧
      sampleChain2.Blockchain[0]? = some sampleGenesis ∧
      sampleChain2.Blockchain[1]? = some sampleSecond ∧
      ({ sampleGenesis with Data := "forged" } : Block) ≠ sampleGenesis ∧
      IsBlockValid sampleSecond { sampleGenesis with Data := "forged" } = true := by
  decide

/-! ## The peer handler -/

set_option maxRecDepth 2000 in
/-- C9 (what the code does): on a message of type `QueryAddBlock` the handler
adds the block of the message to the local chain without calling `IsBlockValid`;
so `strayBlock`, which `IsBlockValid` rejects against the last block of
`genesisChain`, is added to it. -/
theorem P2PHandler_adds_unchecked :
    (∀ (node : Node) (b : Block) (chain : BlockChain),
      P2PHandler true (some { MsgType := QueryAddBlock, Block := b, Blockchain := chain }) node =
        Run.done
          { node := { node with blockchain := AddBlock b node.blockchain }, written := none }) ∧
      LastBlock genesisChain = some sampleGenesis ∧
      IsBlockValid strayBlock sampleGenesis = false ∧
      P2PHandler true
          (some { MsgType := QueryAddBlock, Block := strayBlock, Blockchain := { Blockchain := [] } })
          { blockchain := genesisChain, peers := [] } =
        Run.done
          { node := { blockchain := { Blockchain := [sampleGenesis, strayBlock] }, peers := [] },
            written := none } := by
  refine ⟨fun node b chain => ?_, by decide, by decide, ?_⟩
  · simp [P2PHandler, NewWSMessage, NewWSQueryAddBlock]
  · simp [P2PHandler, NewWSMessage, NewWSQueryAddBlock, AddBlock, genesisChain]

/-! ## The write handler -/

theorem Broadcast_loop_done (net : Nat → DialResult) (msg : WSQueryAddBlock) :
    ∀ (peers : List String) (k : Nat) (sent : List (String × WSQueryAddBlock)),
      (∀ j, j < peers.length → net (k + j) ≠ DialResult.refused) →
      ∃ out, Broadcast.loop net msg k peers sent = Run.done out := by
  intro peers
  induction peers with
  | nil =>
    intro k sent _
    exact ⟨sent, rfl⟩
  | cons peer rest ih =>
    intro k sent hnet
    have hk : net k ≠ DialResult.refused := by simpa using hnet 0 (by simp)
    have hrest : ∀ j, j < rest.length → net (k + 1 + j) ≠ DialResult.refused := by
      intro j hj
      have := hnet (j + 1) (by simpa using hj)
      rwa [show k + (j + 1) = k + 1 + j by omega] at this
    cases hd : net k with
    | refused => exact absurd hd hk
    | connected written =>
      cases written with
      | true =>
        obtain ⟨out, hout⟩ := ih (k + 1) (sent ++ [(peer, msg)]) hrest
        exact ⟨out, by simp [Broadcast.loop, hd, hout]⟩
      | false =>
        obtain ⟨out, hout⟩ := ih (k + 1) sent hrest
        exact ⟨out, by simp [Broadcast.loop, hd, hout]⟩

theorem Broadcast_done (net : Nat → DialResult) (peers : List String) (msg : WSQueryAddBlock)
    (hnet : ∀ k, k < peers.length → net k ≠ DialResult.refused) :
    ∃ out, Broadcast net peers msg = Run.done out :=
  Broadcast_loop_done net msg peers 0 [] (by simpa using hnet)

theorem LastBlock_of_ne_nil (bc : BlockChain) (h : bc.Blockchain ≠ []) :
    ∃ last, LastBlock bc = some last := by
  rw [LastBlock_eq_getLast?]
  exact ⟨bc.Blockchain.getLast h, List.getLast?_eq_getLast _ h⟩

/-- C10 (as the code has it): on a chain with at least one block, for every
request body and clock reading, when no dial of the broadcast fails, `PostBlock`
has exactly one of the two outcomes `PostSucceeded` and `PostFailed`. -/
theorem PostBlock_two_outcomes (node : Node) (body : Option String) (now : Time)
    (net : Nat → DialResult) (hne : node.blockchain.Blockchain ≠ [])
    (hnet : ∀ k, k < node.peers.length → net k ≠ DialResult.refused) :
    (PostSucceeded body net node (PostBlock body now net node) ∨
        PostFailed node (PostBlock body now net node)) ∧
      ¬ (PostSucceeded body net node (PostBlock body now net node) ∧
        PostFailed node (PostBlock body now net node)) := by
  constructor
  · cases body with
    | none => exact Or.inr rfl
    | some s =>
      obtain ⟨last, hlast⟩ := LastBlock_of_ne_nil node.blockchain hne
      cases hv : IsBlockValid (NewBlock (NextIndex node.blockchain) (Hash last) now s) last with
      | false =>
        right
        simp [PostFailed, PostBlock, NextBlock, hlast, hv]
      | true =>
        left
        obtain ⟨sent, hsent⟩ := Broadcast_done net node.peers
          { MsgType := QueryAddBlock,
            Block := NewBlock (NextIndex node.blockchain) (Hash last) now s } hnet
        refine ⟨s, NewBlock (NextIndex node.blockchain) (Hash last) now s, last, sent, rfl,
          hlast, rfl, hv, hsent, ?_⟩
        simp [PostBlock, NextBlock, hlast, hv, hsent]
  · rintro ⟨⟨_, _, _, _, _, _, _, _, _, hout⟩, hfail⟩
    rw [PostFailed, hout] at hfail
    simp at hfail

set_option maxRecDepth 4000 in
/-- C10, witness: `testNode` (one block of index 1 that carries its own hash, one
peer) on a network where every dial succeeds, with the body "hi". -/
theorem PostBlock_two_outcomes_witness :
    testNode.blockchain.Blockchain ≠ [] ∧
      (∀ k, k < testNode.peers.length → liveNet k ≠ DialResult.refused) ∧
      (PostSucceeded (some "hi") liveNet testNode (PostBlock (some "hi") laterTime liveNet testNode) ∨
          PostFailed testNode (PostBlock (some "hi") laterTime liveNet testNode)) ∧
      ¬ (PostSucceeded (some "hi") liveNet testNode
            (PostBlock (some "hi") laterTime liveNet testNode) ∧
          PostFailed testNode (PostBlock (some "hi") laterTime liveNet testNode)) :=
  ⟨by decide, fun _ _ => by simp [liveNet],
    PostBlock_two_outcomes testNode (some "hi") laterTime liveNet (by decide)
      (fun _ _ => by simp [liveNet])⟩

set_option maxRecDepth 4000 in
/-- C10, counterexample: on `testNode` with a peer that cannot be dialled, the
new block is accepted and added, and the process then exits in `log.Fatal` of
`Broadcast`: no response is written, and the outcome is neither `PostSucceeded`
nor `PostFailed`. -/
theorem PostBlock_exits_on_refused_dial :
    testNode.blockchain.Blockchain ≠ [] ∧
      PostBlock (some "hi") laterTime deadNet testNode =
        Run.fatal
          { node :=
              { testNode with
                blockchain :=
                  AddBlock (NewBlock 2 testBlock.Hash laterTime "hi") testNode.blockchain },
            sent := [], response := none } ∧
      ¬ PostSucceeded (some "hi") deadNet testNode
          (PostBlock (some "hi") laterTime deadNet testNode) ∧
      ¬ PostFailed testNode (PostBlock (some "hi") laterTime deadNet testNode) := by
  have heval : PostBlock (some "hi") laterTime deadNet testNode =
      Run.fatal
        { node :=
            { testNode with
              blockchain :=
                AddBlock (NewBlock 2 testBlock.Hash laterTime "hi") testNode.blockchain },
          sent := [], response := none } := by decide
  refine ⟨by decide, heval, ?_, ?_⟩
  · rintro ⟨_, _, _, _, _, _, _, _, _, hout⟩
    rw [heval] at hout
    cases hout
  · intro hfail
    rw [PostFailed, heval] at hfail
    cases hfail

/-! ## The genesis block -/

/-- C11 (as the code has it): the genesis blocks of two clock readings both have
index 0, data "The genesis block" and an empty `PreviousHash`, and each carries
the hash of its own fields; they are the same block if and only if the two
readings print the same timestamp. -/
theorem GetGenesisBlock_eq_iff (t1 t2 : Time) :
    (GetGenesisBlock t1).Index = 0 ∧ (GetGenesisBlock t2).Index = 0 ∧
      (GetGenesisBlock t1).Data = "The genesis block" ∧
      (GetGenesisBlock t2).Data = "The genesis block" ∧
      (GetGenesisBlock t1).PreviousHash = "" ∧ (GetGenesisBlock t2).PreviousHash = "" ∧
      (GetGenesisBlock t1).Timestamp = FormatFromTime t1 ∧
      (GetGenesisBlock t2).Timestamp = FormatFromTime t2 ∧
      (GetGenesisBlock t1).Hash = Hash (GetGenesisBlock t1) ∧
      (GetGenesisBlock t2).Hash = Hash (GetGenesisBlock t2) ∧
      (GetGenesisBlock t1 = GetGenesisBlock t2 ↔ FormatFromTime t1 = FormatFromTime t2) := by
  refine ⟨rfl, rfl, rfl, rfl, rfl, rfl, rfl, rfl, (GetGenesisBlock_hash t1).symm,
    (GetGenesisBlock_hash t2).symm, ?_, ?_⟩
  · intro h
    exact congrArg Block.Timestamp h
  · intro h
    unfold GetGenesisBlock
    rw [h]

set_option maxRecDepth 2000 in
/-- C11, counterexample: the genesis blocks of the clock readings `sampleTime`
(12:45:20) and `laterTime` (16:08:01) differ in `Timestamp` and in `Hash`. -/
theorem GetGenesisBlock_differs :
    GetGenesisBlock sampleTime ≠ GetGenesisBlock laterTime ∧
      (GetGenesisBlock sampleTime).Timestamp = "2017-07-30 12:45:20" ∧
      (GetGenesisBlock laterTime).Timestamp = "2017-07-30 16:08:01" ∧
      (GetGenesisBlock sampleTime).Hash ≠ (GetGenesisBlock laterTime).Hash := by
  decide

/-! ## The last block -/

/-- C12 (what the code does): on a chain with at least one block `LastBlock`
returns the block at position `len - 1`; on the chain without blocks the access
is out of range and the call panics, no error is reported. -/
theorem LastBlock_empty_panics :
    LastBlock { Blockchain := [] } = none ∧
      ∀ (first : Block) (rest : List Block),
        LastBlock { Blockchain := first :: rest } =
            some ((first :: rest).get ⟨(first :: rest).length - 1, by simp⟩) ∧
          (first :: rest)[(first :: rest).length - 1]? =
            LastBlock { Blockchain := first :: rest } := by
  refine ⟨rfl, fun first rest => ?_⟩
  have h : LastBlock { Blockchain := first :: rest } =
      (first :: rest)[(first :: rest).length - 1]? := by
    rw [LastBlock_eq_getLast?]
    exact List.getLast?_eq_getElem? _
  refine ⟨?_, h.symm⟩
  rw [h]
  exact List.getElem?_eq_getElem _

/-! ## Block construction and hashing -/

/-- C13: for every index, previous hash, time and payload, `NewBlock` returns a
block with that index, previous hash and payload, whose `Timestamp` is
`FormatFromTime` of the time and whose `Hash` is `Hash` of the block itself; so
`IsBlockValid` accepts it against a block exactly when index and previous hash
link to that block. -/
theorem NewBlock_fields (i : Int) (p : String) (t : Time) (d : String) :
    (NewBlock i p t d).Index = i ∧ (NewBlock i p t d).PreviousHash = p ∧
      (NewBlock i p t d).Timestamp = FormatFromTime t ∧ (NewBlock i p t d).Data = d ∧
      (NewBlock i p t d).Hash = Hash (NewBlock i p t d) ∧
      ∀ prev : Block, IsBlockValid (NewBlock i p t d) prev = true ↔
        (i = wrapInt (prev.Index + 1) ∧ p = prev.Hash) := by
  refine ⟨rfl, rfl, rfl, rfl, (NewBlock_hash i p t d).symm, fun prev => ?_⟩
  rw [IsBlockValid_eq_true]
  constructor
  · rintro ⟨h1, h2, _⟩
    exact ⟨h1, h2⟩
  · rintro ⟨h1, h2⟩
    exact ⟨h1, h2, NewBlock_hash i p t d⟩

/-- C14: two blocks that agree on `Index`, `PreviousHash`, `Timestamp` and `Data`
have the same `Hash`, whatever their stored `Hash` fields are. -/
theorem Hash_of_four_fields (b c : Block) (hi : b.Index = c.Index)
    (hp : b.PreviousHash = c.PreviousHash) (ht : b.Timestamp = c.Timestamp)
    (hd : b.Data = c.Data) : Hash b = Hash c :=
  Hash_congr b c hi hp ht hd

/-- C14, witness: `marshalBlock` and the same block with the stored `Hash`
replaced by "stale". -/
theorem Hash_of_four_fields_witness :
    marshalBlock.Index = ({ marshalBlock with Hash := "stale" } : Block).Index ∧
      marshalBlock.PreviousHash = ({ marshalBlock with Hash := "stale" } : Block).PreviousHash ∧
      marshalBlock.Timestamp = ({ marshalBlock with Hash := "stale" } : Block).Timestamp ∧
      marshalBlock.Data = ({ marshalBlock with Hash := "stale" } : Block).Data ∧
      Hash marshalBlock = Hash { marshalBlock with Hash := "stale" } :=
  ⟨rfl, rfl, rfl, rfl, Hash_of_four_fields marshalBlock _ rfl rfl rfl rfl⟩

/-! ## The digest text -/

theorem toBytesBE_length (n x : Nat) : (Sha256.toBytesBE n x).length = n := by
  induction n with
  | zero => rfl
  | succ k ih => simp [Sha256.toBytesBE, ih]

theorem compress_length (st block : List Nat) : (Sha256.compress st block).length = 8 := by
  simp [Sha256.compress]

theorem foldl_compress_length (blocks : List (List Nat)) : ∀ st : List Nat,
    st.length = 8 → (blocks.foldl Sha256.compress st).length = 8 := by
  induction blocks with
  | nil =>
    intro st h
    simpa using h
  | cons blk tl ih =>
    intro st _
    rw [List.foldl_cons]
    exact ih _ (compress_length st blk)

theorem flatMap_toBytesBE_length (l : List Nat) :
    (l.flatMap (Sha256.toBytesBE 4)).length = 4 * l.length := by
  induction l with
  | nil => rfl
  | cons a tl ih =>
    rw [List.flatMap_cons, List.length_append, ih, toBytesBE_length, List.length_cons]
    omega

/-- The digest has 32 bytes. -/
theorem sha256_sum_length (msg : List Nat) : (Sha256.sum msg).length = 32 := by
  unfold Sha256.sum
  simp only []
  rw [flatMap_toBytesBE_length, foldl_compress_length _ Sha256.H0 rfl]

theorem hexDigit_mem (n : Nat) : hexDigit n ∈ "0123456789abcdef".toList := by
  unfold hexDigit
  rw [List.getD_eq_getElem?_getD]
  cases h : "0123456789abcdef".toList[n]? with
  | none =>
    rw [Option.getD_none]
    decide
  | some c =>
    rw [Option.getD_some]
    exact List.getElem?_mem h

theorem hexEncode_length (bytes : List Nat) : (hexEncode bytes).length = 2 * bytes.length := by
  unfold hexEncode
  rw [String.length_mk]
  induction bytes with
  | nil => rfl
  | cons b tl ih =>
    rw [List.flatMap_cons, List.length_append, ih, List.length_cons]
    simp
    omega

theorem hexEncode_chars (bytes : List Nat) :
    ∀ c ∈ (hexEncode bytes).toList, c ∈ "0123456789abcdef".toList := by
  unfold hexEncode
  intro c hc
  rw [String.toList] at hc
  simp only [List.mem_flatMap, List.mem_cons, List.mem_singleton, List.not_mem_nil,
    or_false] at hc
  obtain ⟨b, _, hcb⟩ := hc
  rcases hcb with rfl | rfl
  · exact hexDigit_mem _
  · exact hexDigit_mem _

set_option maxRecDepth 4000 in
/-- C15: for every block, `Hash` is the hexadecimal text of the SHA-256 digest of
the decimal index followed by `PreviousHash`, `Timestamp` and `Data`: 64
characters, each one of `0123456789abcdef`. For the blocks of the tests of the
repository it is the text the tests expect. -/
theorem Hash_is_sha256_hex (block : Block) :
    Hash block =
        hexEncode (Sha256.sum (utf8Bytes
          (Itoa block.Index ++ block.PreviousHash ++ block.Timestamp ++ block.Data))) ∧
      (Hash block).length = 64 ∧
      (∀ c ∈ (Hash block).toList, c ∈ "0123456789abcdef".toList) ∧
      Hash { Index := 1, PreviousHash := "0", Timestamp := "2017-07-30 12:45:20",
             Data := "Some data", Hash := "" } =
        "aa6d05a9ddd3cc4811fce8ebfc2a4a25f2fbeb093f2778b55584f807e0063f08" ∧
      testBlock.Hash = "cf56461fb9b0bf610292f777dab0088af3bcc8417b406bb5d5956a067eb6bdef" ∧
      testSecond.Hash = "8721c937c765344fef804b667c2ae77dfa400bc427c4ef272b73b62e226914c9" := by
  refine ⟨rfl, ?_, ?_, by decide, by decide, by decide⟩
  · unfold Hash sha256Hex
    rw [hexEncode_length, sha256_sum_length]
  · unfold Hash sha256Hex
    exact hexEncode_chars _

/-! ## Adding a block -/

set_option maxRecDepth 2000 in
/-- C16: for every chain (the chain without blocks too) and every block,
`AddBlock` gives a chain with one block more, whose last block is the added one
and whose earlier blocks are those of the chain before, in order. Nothing about
the block is checked: `strayBlock`, which `IsBlockValid` rejects against the last
block of `genesisChain`, is added to it. -/
theorem AddBlock_appends (b : Block) (bc : BlockChain) :
    (AddBlock b bc).Blockchain.length = bc.Blockchain.length + 1 ∧
      LastBlock (AddBlock b bc) = some b ∧
      (AddBlock b bc).Blockchain[bc.Blockchain.length]? = some b ∧
      (AddBlock b bc).Blockchain.take bc.Blockchain.length = bc.Blockchain ∧
      AddBlock b { Blockchain := [] } = { Blockchain := [b] } ∧
      LastBlock genesisChain = some sampleGenesis ∧
      IsBlockValid strayBlock sampleGenesis = false ∧
      AddBlock strayBlock genesisChain = { Blockchain := [sampleGenesis, strayBlock] } := by
  refine ⟨by simp [AddBlock], LastBlock_AddBlock b bc, by simp [AddBlock], by simp [AddBlock],
    rfl, by decide, by decide, rfl⟩

/-! ## A chain offered by a peer -/

set_option maxRecDepth 2000 in
/-- C17 (what the code does): on a message of type `ResponseBlockchain` the
handler takes no branch: it returns with the node unchanged and writes nothing,
`ReplaceChain` is not called. So with the local chain `genesisChain` and the
offered chain `sampleChain2`, which `ReplaceChain` would return, the local chain
stays `genesisChain`. -/
theorem P2PHandler_ignores_offered_chain :
    (∀ (node : Node) (b : Block) (chain : BlockChain),
      P2PHandler true
          (some { MsgType := ResponseBlockchain, Block := b, Blockchain := chain }) node =
        Run.done { node := node, written := none }) ∧
      ReplaceChain sampleChain2 genesisChain = some sampleChain2 ∧
      sampleChain2 ≠ genesisChain ∧
      P2PHandler true
          (some { MsgType := ResponseBlockchain,
                  Block := { Index := 0, PreviousHash := "", Timestamp := "", Data := "",
                             Hash := "" },
                  Blockchain := sampleChain2 })
          { blockchain := genesisChain, peers := [] } =
        Run.done { node := { blockchain := genesisChain, peers := [] }, written := none } := by
  refine ⟨fun node b chain => ?_, by decide, by decide, ?_⟩ <;>
    simp [P2PHandler, NewWSMessage, ResponseBlockchain, QueryAddBlock, QueryBlockchain]

theorem ReplaceChain_eq_none_iff (candidate mine : BlockChain) :
    ReplaceChain candidate mine = none ↔ candidate.Blockchain = [] := by
  obtain ⟨l⟩ := candidate
  cases l with
  | nil => exact ⟨fun _ => rfl, fun _ => rfl⟩
  | cons first rest => simp [ReplaceChain_cons]

/-- C18: for every local chain and every candidate chain, a chain returned by
`ReplaceChain` is the candidate or the local chain and has at least as many
blocks as the local chain; the call returns no chain only for a candidate without
blocks, where it panics. -/
theorem ReplaceChain_length_mono (candidate mine : BlockChain) :
    match ReplaceChain candidate mine with
    | some r =>
      mine.Blockchain.length ≤ r.Blockchain.length ∧ (r = candidate ∨ r = mine)
    | none => candidate.Blockchain = [] := by
  obtain ⟨l⟩ := candidate
  cases l with
  | nil => rfl
  | cons first rest =>
    rw [ReplaceChain_cons]
    by_cases h : IsChainValid.loop first rest = true ∧
        mine.Blockchain.length < (first :: rest).length
    · rw [if_pos h]
      exact ⟨Nat.le_of_lt h.2, Or.inl rfl⟩
    · rw [if_neg h]
      exact ⟨Nat.le_refl _, Or.inr rfl⟩

/-! ## Field boundaries in the hashed text -/

/-- C19: `Hash` depends on a block only through the text of the decimal index
followed by `PreviousHash`, `Timestamp` and `Data`, with nothing between them:
two blocks with the same such text have the same `Hash`. -/
theorem Hash_of_concatenation (b c : Block)
    (h : Itoa b.Index ++ b.PreviousHash ++ b.Timestamp ++ b.Data =
      Itoa c.Index ++ c.PreviousHash ++ c.Timestamp ++ c.Data) :
    Hash b = Hash c := by
  unfold Hash
  rw [h]

/-- C19, witness: `marshalBlock` (index 1, `PreviousHash` "0") and `shiftedBlock`
(index 10, empty `PreviousHash`, same `Timestamp` and `Data`) differ in two
fields, have the same hashed text and so the same `Hash`. -/
theorem Hash_of_concatenation_witness :
    Itoa marshalBlock.Index ++ marshalBlock.PreviousHash ++ marshalBlock.Timestamp ++
          marshalBlock.Data =
        Itoa shiftedBlock.Index ++ shiftedBlock.PreviousHash ++ shiftedBlock.Timestamp ++
          shiftedBlock.Data ∧
      marshalBlock.Index ≠ shiftedBlock.Index ∧
      marshalBlock.PreviousHash ≠ shiftedBlock.PreviousHash ∧
      marshalBlock.Timestamp = shiftedBlock.Timestamp ∧
      marshalBlock.Data = shiftedBlock.Data ∧
      Hash marshalBlock = Hash shiftedBlock :=
  ⟨by decide, by decide, by decide, rfl, rfl,
    Hash_of_concatenation marshalBlock shiftedBlock (by decide)⟩

/-! ## Indices of an accepted chain -/

theorem IsChainValid_loop_index (first : Block) (rest : List Block)
    (hv : IsChainValid.loop first rest = true) (hfirst : isGoInt first.Index) :
    ∀ (i : Nat) (b : Block), (first :: rest)[i]? = some b →
      b.Index = wrapInt (first.Index + i) := by
  intro i
  induction i with
  | zero =>
    intro b hb
    simp only [List.getElem?_cons_zero, Option.some.injEq] at hb
    subst hb
    simpa using (wrapInt_of_isGoInt _ hfirst).symm
  | succ k ih =>
    intro b hb
    have hlt : k < (first :: rest).length := by
      have := (List.getElem?_eq_some_iff.mp hb).1
      omega
    have hprev : (first :: rest)[k]? = some ((first :: rest)[k]) := List.getElem?_eq_getElem hlt
    have hlink := (IsChainValid_loop_iff rest first).mp hv k b _ hb hprev
    rw [IsBlockValid_eq_true] at hlink
    rw [hlink.1, ih _ hprev]
    push_cast
    unfold wrapInt
    omega

/-- C20 (as the code has it): in a chain accepted by `IsChainValid` whose first
block has index `k`, the block at position `i` has index `k + i` in the
arithmetic of Go `int` (with wrap-around), and a block at a position `i + 1`
carries the `Hash` of the block at position `i` as `PreviousHash` and its own
hash as `Hash`. When `k + len - 1` is not above the largest `int`, the index at
position `i` is `k + i` and indices grow strictly with the position. -/
theorem IsChainValid_indices (bc : BlockChain) (hv : IsChainValid bc = some true)
    (first : Block) (h0 : bc.Blockchain[0]? = some first) (hfirst : isGoInt first.Index)
    (i : Nat) (b : Block) (hb : bc.Blockchain[i]? = some b) :
    b.Index = wrapInt (first.Index + i) ∧
      (∀ next : Block, bc.Blockchain[i + 1]? = some next →
        next.Index = wrapInt (b.Index + 1) ∧ next.PreviousHash = b.Hash ∧
          Hash next = next.Hash) ∧
      (first.Index + ((bc.Blockchain.length : Int) - 1) < 9223372036854775808 →
        b.Index = first.Index + i ∧
          ∀ (j : Nat) (c : Block), i < j → bc.Blockchain[j]? = some c → b.Index < c.Index) := by
  obtain ⟨l⟩ := bc
  cases l with
  | nil => simp at h0
  | cons f rest =>
    simp only [List.getElem?_cons_zero, Option.some.injEq] at h0
    subst h0
    rw [IsChainValid_cons, Option.some.injEq] at hv
    have hidx := IsChainValid_loop_index f rest hv hfirst
    have hrange : ∀ (n : Nat) (x : Block), (f :: rest)[n]? = some x →
        f.Index + (((f :: rest).length : Int) - 1) < 9223372036854775808 →
        x.Index = f.Index + n := by
      intro n x hx hmax
      have hn := (List.getElem?_eq_some_iff.mp hx).1
      rw [hidx n x hx]
      apply wrapInt_of_isGoInt
      unfold isGoInt at hfirst ⊢
      omega
    refine ⟨hidx i b hb, ?_, ?_⟩
    · intro next hnext
      exact (IsBlockValid_eq_true next b).mp
        ((IsChainValid_loop_iff rest f).mp hv i next b hnext hb)
    · intro hmax
      refine ⟨hrange i b hb hmax, ?_⟩
      intro j c hij hc
      rw [hrange i b hb hmax, hrange j c hc hmax]
      omega

set_option maxRecDepth 2000 in
/-- C20, witness: the second block of `sampleChain3`. -/
theorem IsChainValid_indices_witness :
    IsChainValid sampleChain3 = some true ∧
      sampleChain3.Blockchain[0]? = some sampleGenesis ∧ isGoInt sampleGenesis.Index ∧
      sampleChain3.Blockchain[1]? = some sampleSecond ∧
      sampleSecond.Index = wrapInt (sampleGenesis.Index + (1 : Nat)) ∧
      (∀ next : Block, sampleChain3.Blockchain[1 + 1]? = some next →
        next.Index = wrapInt (sampleSecond.Index + 1) ∧ next.PreviousHash = sampleSecond.Hash ∧
          Hash next = next.Hash) ∧
      (sampleGenesis.Index + ((sampleChain3.Blockchain.length : Int) - 1) <
          9223372036854775808 →
        sampleSecond.Index = sampleGenesis.Index + (1 : Nat) ∧
          ∀ (j : Nat) (c : Block), 1 < j → sampleChain3.Blockchain[j]? = some c →
            sampleSecond.Index < c.Index) :=
  ⟨by decide, rfl, by decide, rfl,
    IsChainValid_indices sampleChain3 (by decide) sampleGenesis rfl (by decide) 1 sampleSecond
      rfl⟩

set_option maxRecDepth 2000 in
/-- C20, counterexample: `wrapChain` is accepted by `IsChainValid`; its first
block has the largest `int` as index and its second block the smallest, so the
second index is not the first plus one and the indices do not grow. -/
theorem IsChainValid_accepts_wrapped_index :
    IsChainValid wrapChain = some true ∧
      wrapChain.Blockchain[0]? = some maxIndexBlock ∧
      wrapChain.Blockchain[1]? = some minIndexBlock ∧
      isGoInt maxIndexBlock.Index ∧ isGoInt minIndexBlock.Index ∧
      maxIndexBlock.Index = 9223372036854775807 ∧
      minIndexBlock.Index = -9223372036854775808 ∧
      minIndexBlock.Index ≠ maxIndexBlock.Index + 1 ∧
      ¬ maxIndexBlock.Index < minIndexBlock.Index := by
  decide

end Gochain
